import Mathlib

/-!
Shallow embedding of the block cache layer of `easy-fs` (`block_cache.rs`):
a `BlockCache` entry mirrors one device block in memory and tracks a dirty
flag; a `BlockCacheManager` keeps a bounded queue of shared entries keyed by
block id, with FIFO-with-skip eviction driven by `Arc` strong counts.

Bytes are modelled as `Nat`, buffers as `List Nat`, and the block device as a
total map from block ids to buffers together with counters of `read_block`
and `write_block` calls (so "no device I/O" claims are statable).  An
`Arc<Mutex<BlockCache>>` is modelled as the pool slot itself plus its strong
count: an entry is evicted only when its strong count is 1, hence every live
external handle always aliases a slot still resident in the queue, and a
handle is identified by its block id.
-/

namespace BlockCacheSpec

/-- Modelled from the spec: `BLOCK_SZ` is the device's fixed block size, a
build-time constant defined outside the provided sources (`easy-fs` uses
512 bytes per block). -/
def BLOCK_SZ : Nat := 512

/-- `const BLOCK_CACHE_SIZE: usize = 16;` — the pool capacity `N`. -/
def BLOCK_CACHE_SIZE : Nat := 16

/-- The block device collaborator: per-block contents plus counters of the
`read_block` / `write_block` calls issued so far. -/
structure Device where
  blocks : Nat → List Nat
  readCount : Nat
  writeCount : Nat

/-- `read_block(block_id, &mut buf)`: yields the block's current contents
and bumps the read counter. -/
def Device.read_block (d : Device) (id : Nat) : List Nat × Device :=
  (d.blocks id, { d with readCount := d.readCount + 1 })

/-- `write_block(block_id, &buf)`: persists `buf` as the block's contents
and bumps the write counter. -/
def Device.write_block (d : Device) (id : Nat) (buf : List Nat) : Device :=
  { blocks := fun j => if j = id then buf else d.blocks j,
    readCount := d.readCount,
    writeCount := d.writeCount + 1 }

/-- `struct BlockCache { cache, block_id, block_device, modified }`; the
device reference is threaded explicitly instead of being stored. -/
structure BlockCache where
  cache : List Nat
  block_id : Nat
  modified : Bool
deriving DecidableEq

/-- `BlockCache::new`: read the block from the device into a fresh buffer;
`modified` starts out `false`. -/
def BlockCache.new (block_id : Nat) (d : Device) : BlockCache × Device :=
  let r := d.read_block block_id
  ({ cache := r.1, block_id := block_id, modified := false }, r.2)

/-- `BlockCache::get_ref::<T>`: the `size_of::<T>()`-byte view at `offset`,
guarded by `assert!(offset + type_size <= BLOCK_SZ)`; `none` models the
fatal assertion failure. -/
def BlockCache.get_ref (bc : BlockCache) (offset sz : Nat) : Option (List Nat) :=
  if offset + sz ≤ BLOCK_SZ then some ((bc.cache.drop offset).take sz) else none

/-- `BlockCache::get_mut::<T>`: same view but mutable; on success it sets
`modified := true` before handing out the region. -/
def BlockCache.get_mut (bc : BlockCache) (offset sz : Nat) :
    Option (List Nat × BlockCache) :=
  if offset + sz ≤ BLOCK_SZ then
    some ((bc.cache.drop offset).take sz, { bc with modified := true })
  else none

/-- `BlockCache::read`: apply a pure closure to the immutable typed view.
The entry itself is untouched (the operation returns no new entry). -/
def BlockCache.read {V : Type} (bc : BlockCache) (offset sz : Nat)
    (f : List Nat → V) : Option V :=
  (bc.get_ref offset sz).map f

/-- Splice a freshly written `sz`-byte region back into the buffer at
`offset` (the write-back through the mutable reference). -/
def writeRegion (c : List Nat) (offset sz : Nat) (r : List Nat) : List Nat :=
  c.take offset ++ r ++ c.drop (offset + sz)

/-- `BlockCache::modify`: apply a mutating closure to the mutable typed
view; the closure returns the updated region and its result value. -/
def BlockCache.modify {V : Type} (bc : BlockCache) (offset sz : Nat)
    (f : List Nat → List Nat × V) : Option (V × BlockCache) :=
  match bc.get_mut offset sz with
  | none => none
  | some p =>
    let r := f p.1
    some (r.2, { p.2 with cache := writeRegion p.2.cache offset sz r.1 })

/-- `BlockCache::sync`: if `modified`, clear the flag and write the whole
buffer back to the device at `block_id`; otherwise do nothing. -/
def BlockCache.sync (bc : BlockCache) (d : Device) : BlockCache × Device :=
  if bc.modified then
    ({ bc with modified := false }, d.write_block bc.block_id bc.cache)
  else (bc, d)

/-- `impl Drop for BlockCache`: the entry's destructor runs `sync`; only
the resulting device state survives. -/
def BlockCache.drop (bc : BlockCache) (d : Device) : Device :=
  (bc.sync d).2

/-- One queue slot of the manager: the `(block_id, Arc<Mutex<BlockCache>>)`
pair, with `strong` the `Arc` strong count (the pool's own reference plus
one per outstanding external handle). -/
structure Slot where
  bid : Nat
  bc : BlockCache
  strong : Nat
deriving DecidableEq

/-- `struct BlockCacheManager { queue: VecDeque<(usize, Arc<Mutex<BlockCache>>)> }`. -/
structure BlockCacheManager where
  queue : List Slot
deriving DecidableEq

/-- `Arc::clone` on the first queue pair whose id matches: the returned
handle bumps that slot's strong count; everything else is untouched. -/
def bumpFirst : List Slot → Nat → List Slot
  | [], _ => []
  | s :: rest, b =>
    if s.bid = b then { s with strong := s.strong + 1 } :: rest
    else s :: bumpFirst rest b

/-- The eviction scan: find the first slot (front to back) with strong
count exactly 1, remove it (`drain(idx..=idx)`) — dropping the last `Arc`
runs the entry's destructor, i.e. `sync` — or fail if every slot is
pinned. -/
def evictFirstFree : List Slot → Device → Option (List Slot × Device)
  | [], _ => none
  | s :: rest, d =>
    if s.strong = 1 then some (rest, s.bc.drop d)
    else
      match evictFirstFree rest d with
      | some p => some (s :: p.1, p.2)
      | none => none

/-- `BlockCacheManager::get_block_cache`: on a hit, clone the existing
`Arc`; on a miss, evict first when the queue is full (`none` models the
`panic!("Run out of BlockCache!")`), then load the block from the device
and push the new pair to the back with strong count 2 (queue + returned
handle). -/
def BlockCacheManager.get_block_cache (m : BlockCacheManager) (block_id : Nat)
    (d : Device) : Option (BlockCacheManager × Device) :=
  if m.queue.any (fun s => s.bid == block_id) then
    some (⟨bumpFirst m.queue block_id⟩, d)
  else
    match (if m.queue.length = BLOCK_CACHE_SIZE then evictFirstFree m.queue d
           else some (m.queue, d)) with
    | none => none
    | some p =>
      some (⟨p.1 ++ [⟨block_id, (BlockCache.new block_id p.2).1, 2⟩]⟩,
            (BlockCache.new block_id p.2).2)

/-- The loop body of `block_cache_sync_all`: `sync` every resident entry,
front to back, threading the device through. -/
def syncAllAux : List Slot → Device → List Slot × Device
  | [], d => ([], d)
  | s :: rest, d =>
    let r := s.bc.sync d
    let rr := syncAllAux rest r.2
    ({ s with bc := r.1 } :: rr.1, rr.2)

/-- `block_cache_sync_all()`: sync every entry of the pool in queue order;
nothing is evicted. -/
def block_cache_sync_all (m : BlockCacheManager) (d : Device) :
    BlockCacheManager × Device :=
  let r := syncAllAux m.queue d
  (⟨r.1⟩, r.2)

/-- Iterate `sync` on an entry/device pair (to state flush idempotence for
a whole sequence of calls). -/
def syncIter : Nat → BlockCache × Device → BlockCache × Device
  | 0, p => p
  | n + 1, p => syncIter n (p.1.sync p.2)

/-- Manager states reachable from the empty pool by successful `acquire`
(`get_block_cache`) calls. -/
inductive Reachable : BlockCacheManager → Prop
  | empty : Reachable ⟨[]⟩
  | step (m : BlockCacheManager) (b : Nat) (d : Device) (m2 : BlockCacheManager)
      (d2 : Device) : Reachable m → m.get_block_cache b d = some (m2, d2) →
      Reachable m2

/-- A concrete device whose blocks are all empty, for concrete runs. -/
def dev0 : Device := ⟨fun _ => [], 0, 0⟩

/-- A concrete fresh slot for block `i` with the given strong count. -/
def mkSlot (i strongv : Nat) : Slot := ⟨i, ⟨[], i, false⟩, strongv⟩

/-- Concrete pool fixture: one pinned front slot. -/
def q1w : List Slot := [mkSlot 0 2]

/-- Concrete pool fixture: the second-admitted, unpinned slot. -/
def sw : Slot := mkSlot 1 1

/-- Concrete pool fixture: fourteen more pinned slots, filling the pool. -/
def q2w : List Slot := (List.range 14).map (fun i => mkSlot (i + 2) 2)

/-- Concrete pool fixture: sixteen slots, all pinned. -/
def qPin : List Slot := (List.range 16).map (fun i => mkSlot i 2)

/-- Concrete pool fixture for the hit path: the slot in front of the hit. -/
def q1w4 : List Slot := [mkSlot 0 2]

/-- Concrete pool fixture for the hit path: the resident slot for block 5. -/
def sw4 : Slot := mkSlot 5 3

/-- Concrete pool fixture for the hit path: the slot behind the hit. -/
def q2w4 : List Slot := [mkSlot 6 1]

/-- Concrete pool fixture for bulk flush: one clean and one dirty slot. -/
def qSync : List Slot := [⟨0, ⟨[], 0, false⟩, 1⟩, ⟨1, ⟨[4], 1, true⟩, 2⟩]

/-- Concrete manager state reached by one acquire from the empty pool. -/
def mReach : BlockCacheManager := ⟨[⟨0, ⟨[], 0, false⟩, 2⟩]⟩

/- ## Helper lemmas -/

lemma read_writeRegion (c : List Nat) (o sz : Nat) (r : List Nat)
    (hlen : o + sz ≤ c.length) (hr : r.length = sz) :
    ((writeRegion c o sz r).drop o).take sz = r := by
  have ho : o ≤ c.length := le_trans (Nat.le_add_right o sz) hlen
  have h1 : (c.take o).length = o := by
    rw [List.length_take]; exact Nat.min_eq_left ho
  unfold writeRegion
  rw [List.append_assoc, List.drop_left' h1, List.take_left' hr]

lemma modify_some_modified {W : Type} {bc bc2 : BlockCache} {o sz : Nat}
    {g : List Nat → List Nat × W} {v : W}
    (h : bc.modify o sz g = some (v, bc2)) : bc2.modified = true := by
  unfold BlockCache.modify at h
  cases hm : bc.get_mut o sz with
  | none => rw [hm] at h; exact absurd h (by simp)
  | some p =>
    rw [hm] at h
    simp only [Option.some.injEq, Prod.mk.injEq] at h
    have h2 : p.2.modified = true := by
      unfold BlockCache.get_mut at hm
      by_cases hb : o + sz ≤ BLOCK_SZ
      · rw [if_pos hb] at hm
        injection hm with h5
        rw [← h5]
      · rw [if_neg hb] at hm; cases hm
    rw [← h.2]
    exact h2

lemma syncIter_clean (n : Nat) (bc : BlockCache) (d : Device)
    (h : bc.modified = false) : syncIter n (bc, d) = (bc, d) := by
  induction n with
  | zero => rfl
  | succ k ih =>
    show syncIter k (bc.sync d) = (bc, d)
    have : bc.sync d = (bc, d) := by
      unfold BlockCache.sync; rw [if_neg (by simp [h])]
    rw [this, ih]

/- ## Claims about a single cache entry -/

/-- C5: within one entry, `write_typed(o, store V)` (`modify`) immediately
followed by `read_typed(o, read)` (`read`) returns exactly `V` whenever
`o + size_of(T) ≤ BLOCK_SZ`; neither operation touches the device (both
are pure functions of the entry alone, so no device I/O can occur between
the two calls). -/
theorem read_after_write (bc : BlockCache) (o sz : Nat) (V : List Nat)
    (hc : bc.cache.length = BLOCK_SZ) (hV : V.length = sz)
    (h : o + sz ≤ BLOCK_SZ) :
    ∃ bc2 : BlockCache,
      bc.modify o sz (fun r => (V, ())) = some ((), bc2) ∧
      bc2.read o sz (fun r => r) = some V := by
  refine ⟨{ cache := writeRegion bc.cache o sz V, block_id := bc.block_id,
            modified := true }, ?_, ?_⟩
  · unfold BlockCache.modify BlockCache.get_mut
    rw [if_pos h]
  · unfold BlockCache.read BlockCache.get_ref
    rw [if_pos h]
    show some (((writeRegion bc.cache o sz V).drop o).take sz) = some V
    rw [read_writeRegion bc.cache o sz V (hc ▸ h) hV]

set_option maxRecDepth 8192 in
theorem read_after_write_witness :
    (⟨List.replicate 512 0, 0, false⟩ : BlockCache).cache.length = BLOCK_SZ ∧
    ([7] : List Nat).length = 1 ∧ 0 + 1 ≤ BLOCK_SZ ∧
    ∃ bc2 : BlockCache,
      (⟨List.replicate 512 0, 0, false⟩ : BlockCache).modify 0 1
          (fun r => ([7], ())) = some ((), bc2) ∧
      bc2.read 0 1 (fun r => r) = some [7] :=
  ⟨by simp [BLOCK_SZ], by simp, by simp [BLOCK_SZ],
   read_after_write _ 0 1 [7] (by simp [BLOCK_SZ]) (by simp) (by simp [BLOCK_SZ])⟩

/-- C8: `read_typed` / `write_typed` abort fatally (modelled as `none`)
exactly when `offset + size_of(T) > BLOCK_SZ`; under the precondition they
complete and return the closure's result. -/
theorem typed_access_bounds {V W : Type} (bc : BlockCache) (o sz : Nat)
    (f : List Nat → V) (g : List Nat → List Nat × W) :
    (o + sz ≤ BLOCK_SZ →
       bc.read o sz f = some (f ((bc.cache.drop o).take sz)) ∧
       (bc.modify o sz g).map (fun p => p.1) =
         some (g ((bc.cache.drop o).take sz)).2) ∧
    (BLOCK_SZ < o + sz →
       bc.read o sz f = none ∧ bc.modify o sz g = none) := by
  constructor
  · intro h
    constructor
    · unfold BlockCache.read BlockCache.get_ref; rw [if_pos h]; rfl
    · unfold BlockCache.modify BlockCache.get_mut; rw [if_pos h]; rfl
  · intro h
    have h2 : ¬ (o + sz ≤ BLOCK_SZ) := Nat.not_le.mpr h
    constructor
    · unfold BlockCache.read BlockCache.get_ref; rw [if_neg h2]; rfl
    · unfold BlockCache.modify BlockCache.get_mut; rw [if_neg h2]

theorem typed_access_bounds_witness :
    (0 + 1 ≤ BLOCK_SZ ∧
      (⟨[3, 4], 0, false⟩ : BlockCache).read 0 1 (fun r => r) = some [3] ∧
      ((⟨[3, 4], 0, false⟩ : BlockCache).modify 0 1
          (fun r => (r, 9))).map (fun p => p.1) = some 9) ∧
    (BLOCK_SZ < 600 + 1 ∧
      (⟨[3, 4], 0, false⟩ : BlockCache).read 600 1 (fun r => r) = none ∧
      (⟨[3, 4], 0, false⟩ : BlockCache).modify 600 1 (fun r => (r, 9)) = none) :=
  ⟨⟨by decide,
    ((typed_access_bounds (⟨[3, 4], 0, false⟩) 0 1 (fun r => r)
        (fun r => (r, 9))).1 (by decide)).1,
    ((typed_access_bounds (⟨[3, 4], 0, false⟩) 0 1 (fun r => r)
        (fun r => (r, 9))).1 (by decide)).2⟩,
   ⟨by decide,
    ((typed_access_bounds (⟨[3, 4], 0, false⟩) 600 1 (fun r => r)
        (fun r => (r, 9))).2 (by decide)).1,
    ((typed_access_bounds (⟨[3, 4], 0, false⟩) 600 1 (fun r => r)
        (fun r => (r, 9))).2 (by decide)).2⟩⟩

/-- C9: the dirty flag's state machine — clean at creation
(`BlockCache::new`), set by every successful `write_typed` (`modify`)
whatever the closure does, cleared by `sync`; `read_typed` returns only a
value and no entry, so it cannot change the flag. -/
theorem dirty_flag_state_machine {W : Type} (idb : Nat) (d d2 : Device)
    (bc bc2 : BlockCache) (o sz : Nat) (g : List Nat → List Nat × W) (v : W) :
    (BlockCache.new idb d).1.modified = false ∧
    (bc.modify o sz g = some (v, bc2) → bc2.modified = true) ∧
    (bc.sync d2).1.modified = false := by
  refine ⟨rfl, fun h => modify_some_modified h, ?_⟩
  unfold BlockCache.sync
  by_cases hm : bc.modified
  · rw [if_pos hm]
  · rw [if_neg hm]
    simpa using hm

theorem dirty_flag_state_machine_witness :
    (BlockCache.new 4 dev0).1.modified = false ∧
    ((⟨[1], 4, false⟩ : BlockCache).modify 0 1 (fun r => (r, 0)) =
        some (0, ⟨[1], 4, true⟩) ∧
      (⟨[1], 4, true⟩ : BlockCache).modified = true) ∧
    ((⟨[1], 4, false⟩ : BlockCache).sync dev0).1.modified = false := by
  have T := dirty_flag_state_machine 4 dev0 dev0 (⟨[1], 4, false⟩)
      (⟨[1], 4, true⟩) 0 1 (fun r => (r, 0)) 0
  exact ⟨T.1, ⟨rfl, T.2.1 rfl⟩, T.2.2⟩

/-- C2: the destructor (`Drop`, run in particular when the pool evicts the
last reference) flushes automatically — an entry dirtied by `write_typed`
has its whole buffer written to the device at its `block_id` (one device
write, and a subsequent read of that block observes the final contents),
while dropping a clean entry performs no device write at all. -/
theorem drop_flushes_dirty {W : Type} (bc bc2 : BlockCache) (d : Device)
    (o sz : Nat) (g : List Nat → List Nat × W) (v : W) :
    (bc.modify o sz g = some (v, bc2) →
       (bc2.drop d).blocks bc2.block_id = bc2.cache ∧
       (bc2.drop d).writeCount = d.writeCount + 1) ∧
    (bc.modified = false → bc.drop d = d) := by
  constructor
  · intro h
    have hm : bc2.modified = true := modify_some_modified h
    unfold BlockCache.drop BlockCache.sync
    rw [if_pos hm]
    constructor
    · show (d.write_block bc2.block_id bc2.cache).blocks bc2.block_id = bc2.cache
      unfold Device.write_block
      simp
    · rfl
  · intro h
    unfold BlockCache.drop BlockCache.sync
    rw [if_neg (by simp [h])]

theorem drop_flushes_dirty_witness :
    ((⟨[1, 2], 3, false⟩ : BlockCache).modify 0 1 (fun r => ([9], ())) =
        some ((), ⟨[9, 2], 3, true⟩) ∧
      ((⟨[9, 2], 3, true⟩ : BlockCache).drop dev0).blocks 3 = [9, 2] ∧
      ((⟨[9, 2], 3, true⟩ : BlockCache).drop dev0).writeCount =
        dev0.writeCount + 1) ∧
    ((⟨[1, 2], 3, false⟩ : BlockCache).modified = false ∧
      (⟨[1, 2], 3, false⟩ : BlockCache).drop dev0 = dev0) := by
  have T := drop_flushes_dirty (⟨[1, 2], 3, false⟩) (⟨[9, 2], 3, true⟩) dev0
      0 1 (fun r => ([9], ())) ()
  have h1 := T.1 (by decide)
  exact ⟨⟨by decide, h1.1, h1.2⟩, ⟨rfl, T.2 rfl⟩⟩

/-- C6: `flush` (`sync`) writes the whole buffer at `block_id` and clears
the dirty flag when the entry is dirty, and is the identity when clean;
hence after one `write_typed`, any sequence of `n ≥ 1` flushes performs
exactly one device write (the first call) and leaves the buffer's contents
on the device. -/
theorem sync_idempotent (bc : BlockCache) (d : Device) :
    (bc.modified = true →
       bc.sync d = ({ cache := bc.cache, block_id := bc.block_id,
                      modified := false },
                    d.write_block bc.block_id bc.cache)) ∧
    (bc.modified = false → bc.sync d = (bc, d)) ∧
    (bc.modified = true → ∀ n, 1 ≤ n →
       (syncIter n (bc, d)).2.writeCount = d.writeCount + 1 ∧
       (syncIter n (bc, d)).2.blocks bc.block_id = bc.cache) := by
  refine ⟨?_, ?_, ?_⟩
  · intro h; unfold BlockCache.sync; rw [if_pos h]
  · intro h; unfold BlockCache.sync; rw [if_neg (by simp [h])]
  · intro h n hn
    obtain ⟨k, rfl⟩ : ∃ k, n = k + 1 := ⟨n - 1, (Nat.sub_add_cancel hn).symm⟩
    have e1 : syncIter (k + 1) (bc, d) = syncIter k (bc.sync d) := rfl
    have e2 : bc.sync d = ({ bc with modified := false },
        d.write_block bc.block_id bc.cache) := by
      unfold BlockCache.sync; rw [if_pos h]
    rw [e1, e2, syncIter_clean k _ _ rfl]
    constructor
    · rfl
    · show (d.write_block bc.block_id bc.cache).blocks bc.block_id = bc.cache
      unfold Device.write_block
      simp

theorem sync_idempotent_witness :
    (⟨[5], 2, true⟩ : BlockCache).modified = true ∧ 1 ≤ 3 ∧
    (⟨[5], 2, true⟩ : BlockCache).sync dev0 =
      (⟨[5], 2, false⟩, dev0.write_block 2 [5]) ∧
    (syncIter 3 (⟨[5], 2, true⟩, dev0)).2.writeCount = dev0.writeCount + 1 ∧
    (syncIter 3 (⟨[5], 2, true⟩, dev0)).2.blocks 2 = [5] := by
  have T := sync_idempotent (⟨[5], 2, true⟩) dev0
  have h3 := T.2.2 rfl 3 (by decide)
  exact ⟨rfl, by decide, T.1 rfl, h3.1, h3.2⟩

/- ## Pool-level helper lemmas -/

lemma any_bid_eq_false {q : List Slot} {b : Nat} (h : ∀ t ∈ q, t.bid ≠ b) :
    (q.any fun s => s.bid == b) = false := by
  simp only [List.any_eq_false, beq_iff_eq]
  exact h

lemma evict_split (q1 : List Slot) (s : Slot) (q2 : List Slot) (d : Device)
    (hfront : ∀ t ∈ q1, t.strong ≠ 1) (hs : s.strong = 1) :
    evictFirstFree (q1 ++ s :: q2) d = some (q1 ++ q2, s.bc.drop d) := by
  induction q1 with
  | nil =>
    show evictFirstFree (s :: q2) d = _
    unfold evictFirstFree
    rw [if_pos hs]
    rfl
  | cons t rest ih =>
    show evictFirstFree (t :: (rest ++ s :: q2)) d = _
    unfold evictFirstFree
    rw [if_neg (hfront t (List.mem_cons_self t rest)),
        ih (fun u hu => hfront u (List.mem_cons_of_mem t hu))]
    rfl

lemma evict_none (q : List Slot) (d : Device) (h : ∀ t ∈ q, t.strong ≠ 1) :
    evictFirstFree q d = none := by
  induction q with
  | nil => rfl
  | cons s rest ih =>
    unfold evictFirstFree
    rw [if_neg (h s (List.mem_cons_self s rest)),
        ih (fun t ht => h t (List.mem_cons_of_mem s ht))]

lemma bumpFirst_split (q1 : List Slot) (s : Slot) (q2 : List Slot) (b : Nat)
    (hfront : ∀ t ∈ q1, t.bid ≠ b) (hs : s.bid = b) :
    bumpFirst (q1 ++ s :: q2) b = q1 ++ { s with strong := s.strong + 1 } :: q2 := by
  induction q1 with
  | nil =>
    show bumpFirst (s :: q2) b = _
    unfold bumpFirst
    rw [if_pos hs]
    rfl
  | cons t rest ih =>
    show bumpFirst (t :: (rest ++ s :: q2)) b = _
    unfold bumpFirst
    rw [if_neg (hfront t (List.mem_cons_self t rest)),
        ih (fun u hu => hfront u (List.mem_cons_of_mem t hu))]
    rfl

/- ## Claims about the pool -/

/-- C1: on a miss with the pool full, `get_block_cache` removes exactly the
first (oldest-admitted) entry whose strong count is 1, wherever it sits:
every earlier (older) pinned entry is skipped, later entries are untouched,
and access recency plays no role.  The removed entry's destructor flushes
it (`s.bc.drop`), then the requested block is loaded and appended at the
back with strong count 2. -/
theorem eviction_removes_first_unpinned (q1 : List Slot) (s : Slot)
    (q2 : List Slot) (b : Nat) (d : Device)
    (hlen : (q1 ++ s :: q2).length = BLOCK_CACHE_SIZE)
    (hmiss : ∀ t ∈ q1 ++ s :: q2, t.bid ≠ b)
    (hfront : ∀ t ∈ q1, t.strong ≠ 1)
    (hs : s.strong = 1) :
    BlockCacheManager.get_block_cache ⟨q1 ++ s :: q2⟩ b d =
      some (⟨(q1 ++ q2) ++ [⟨b, (BlockCache.new b (s.bc.drop d)).1, 2⟩]⟩,
            (BlockCache.new b (s.bc.drop d)).2) := by
  unfold BlockCacheManager.get_block_cache
  rw [if_neg (show ¬ ((q1 ++ s :: q2).any fun t => t.bid == b) = true by
        rw [any_bid_eq_false hmiss]; simp)]
  rw [if_pos hlen, evict_split q1 s q2 d hfront hs]

theorem eviction_removes_first_unpinned_witness :
    (q1w ++ sw :: q2w).length = BLOCK_CACHE_SIZE ∧
    (∀ t ∈ q1w ++ sw :: q2w, t.bid ≠ 99) ∧
    (∀ t ∈ q1w, t.strong ≠ 1) ∧ sw.strong = 1 ∧
    BlockCacheManager.get_block_cache ⟨q1w ++ sw :: q2w⟩ 99 dev0 =
      some (⟨(q1w ++ q2w) ++ [⟨99, (BlockCache.new 99 (sw.bc.drop dev0)).1, 2⟩]⟩,
            (BlockCache.new 99 (sw.bc.drop dev0)).2) :=
  ⟨by decide, by decide, by decide, rfl,
   eviction_removes_first_unpinned q1w sw q2w 99 dev0 (by decide) (by decide)
     (by decide) rfl⟩

/-- C3: a miss on a full pool in which every entry is pinned (strong count
not 1 anywhere) panics (`none`): no eviction candidate exists
(`evictFirstFree` also yields `none`, so no entry was removed, created or
flushed and the device was never touched before the abort). -/
theorem saturated_pool_fails (q : List Slot) (b : Nat) (d : Device)
    (hlen : q.length = BLOCK_CACHE_SIZE)
    (hmiss : ∀ t ∈ q, t.bid ≠ b)
    (hpin : ∀ t ∈ q, t.strong ≠ 1) :
    BlockCacheManager.get_block_cache ⟨q⟩ b d = none ∧
    evictFirstFree q d = none := by
  have he := evict_none q d hpin
  constructor
  · unfold BlockCacheManager.get_block_cache
    rw [if_neg (show ¬ (q.any fun t => t.bid == b) = true by
          rw [any_bid_eq_false hmiss]; simp)]
    rw [if_pos hlen, he]
  · exact he

theorem saturated_pool_fails_witness :
    qPin.length = BLOCK_CACHE_SIZE ∧
    (∀ t ∈ qPin, t.bid ≠ 99) ∧ (∀ t ∈ qPin, t.strong ≠ 1) ∧
    BlockCacheManager.get_block_cache ⟨qPin⟩ 99 dev0 = none ∧
    evictFirstFree qPin dev0 = none :=
  ⟨by decide, by decide, by decide,
   (saturated_pool_fails qPin 99 dev0 (by decide) (by decide) (by decide)).1,
   (saturated_pool_fails qPin 99 dev0 (by decide) (by decide) (by decide)).2⟩

/-- C4: a hit performs no device I/O at all (the device state, counters
included, is returned untouched) and returns a reference to the existing
entry: the resident slot keeps its `BlockCache` unchanged and only its
strong count is incremented by the `Arc` clone handed back, so both the
old and the new handle alias the same underlying buffer. -/
theorem hit_returns_existing_entry (q1 : List Slot) (s : Slot) (q2 : List Slot)
    (b : Nat) (d : Device)
    (hfront : ∀ t ∈ q1, t.bid ≠ b) (hs : s.bid = b) :
    BlockCacheManager.get_block_cache ⟨q1 ++ s :: q2⟩ b d =
      some (⟨q1 ++ ⟨s.bid, s.bc, s.strong + 1⟩ :: q2⟩, d) := by
  unfold BlockCacheManager.get_block_cache
  rw [if_pos (show ((q1 ++ s :: q2).any fun t => t.bid == b) = true by
        simp only [List.any_eq_true, beq_iff_eq]
        exact ⟨s, by simp, hs⟩)]
  rw [bumpFirst_split q1 s q2 b hfront hs]

theorem hit_returns_existing_entry_witness :
    (∀ t ∈ q1w4, t.bid ≠ 5) ∧ sw4.bid = 5 ∧
    BlockCacheManager.get_block_cache ⟨q1w4 ++ sw4 :: q2w4⟩ 5 dev0 =
      some (⟨q1w4 ++ ⟨sw4.bid, sw4.bc, sw4.strong + 1⟩ :: q2w4⟩, dev0) :=
  ⟨by decide, rfl,
   hit_returns_existing_entry q1w4 sw4 q2w4 5 dev0 (by decide) rfl⟩

lemma syncAllAux_spec (q : List Slot) :
    ∀ d : Device, (q.map Slot.bid).Nodup →
    (∀ t ∈ q, t.bc.block_id = t.bid) →
    (∀ t ∈ q, t.bc.modified = false → d.blocks t.bid = t.bc.cache) →
    ((syncAllAux q d).1.map (fun t => (t.bid, t.bc.cache, t.strong)) =
       q.map (fun t => (t.bid, t.bc.cache, t.strong))) ∧
    (∀ t ∈ (syncAllAux q d).1, t.bc.modified = false) ∧
    (∀ t ∈ (syncAllAux q d).1, (syncAllAux q d).2.blocks t.bid = t.bc.cache) ∧
    (∀ j, j ∉ q.map Slot.bid → (syncAllAux q d).2.blocks j = d.blocks j) := by
  induction q with
  | nil =>
    intro d _ _ _
    refine ⟨rfl, ?_, ?_, fun j _ => rfl⟩
    · intro t ht; exact absurd ht (List.not_mem_nil t)
    · intro t ht; exact absurd ht (List.not_mem_nil t)
  | cons s rest ih =>
    intro d hnd hid hclean
    rw [List.map_cons] at hnd
    have hndp := List.nodup_cons.mp hnd
    have hbid : s.bc.block_id = s.bid := hid s (List.mem_cons_self s rest)
    have hidr : ∀ t ∈ rest, t.bc.block_id = t.bid :=
      fun t ht => hid t (List.mem_cons_of_mem s ht)
    by_cases hm : s.bc.modified = true
    · have e : s.bc.sync d =
          (⟨s.bc.cache, s.bid, false⟩, d.write_block s.bid s.bc.cache) := by
        unfold BlockCache.sync; rw [if_pos hm, hbid]
      have h1q : (syncAllAux (s :: rest) d).1 =
          { s with bc := ⟨s.bc.cache, s.bid, false⟩ } ::
            (syncAllAux rest (d.write_block s.bid s.bc.cache)).1 := by
        show (let r := s.bc.sync d
              let rr := syncAllAux rest r.2
              ({ s with bc := r.1 } :: rr.1, rr.2)).1 = _
        rw [e]
      have h2d : (syncAllAux (s :: rest) d).2 =
          (syncAllAux rest (d.write_block s.bid s.bc.cache)).2 := by
        show (let r := s.bc.sync d
              let rr := syncAllAux rest r.2
              ({ s with bc := r.1 } :: rr.1, rr.2)).2 = _
        rw [e]
      have hcleanr : ∀ t ∈ rest, t.bc.modified = false →
          (d.write_block s.bid s.bc.cache).blocks t.bid = t.bc.cache := by
        intro t ht hmt
        have hne : t.bid ≠ s.bid := by
          intro hc
          have hmem : t.bid ∈ rest.map Slot.bid :=
            List.mem_map_of_mem Slot.bid ht
          rw [hc] at hmem
          exact hndp.1 hmem
        show (if t.bid = s.bid then s.bc.cache else d.blocks t.bid) = t.bc.cache
        rw [if_neg hne]
        exact hclean t (List.mem_cons_of_mem s ht) hmt
      obtain ⟨ih1, ih2, ih3, ih4⟩ :=
        ih (d.write_block s.bid s.bc.cache) hndp.2 hidr hcleanr
      refine ⟨?_, ?_, ?_, ?_⟩
      · rw [h1q, List.map_cons, List.map_cons, ih1]
      · intro t ht
        rw [h1q] at ht
        rcases List.mem_cons.mp ht with h | h
        · rw [h]
        · exact ih2 t h
      · intro t ht
        rw [h2d]
        rw [h1q] at ht
        rcases List.mem_cons.mp ht with h | h
        · rw [h]
          show (syncAllAux rest (d.write_block s.bid s.bc.cache)).2.blocks s.bid
              = s.bc.cache
          rw [ih4 s.bid hndp.1]
          show (if s.bid = s.bid then s.bc.cache else d.blocks s.bid) = s.bc.cache
          rw [if_pos rfl]
        · exact ih3 t h
      · intro j hj
        rw [List.map_cons] at hj
        rw [h2d, ih4 j (fun hc => hj (List.mem_cons_of_mem _ hc))]
        show (if j = s.bid then s.bc.cache else d.blocks j) = d.blocks j
        rw [if_neg (show ¬ j = s.bid from
          fun hc => hj (by rw [hc]; exact List.mem_cons_self _ _))]
    · have hmf : s.bc.modified = false := by simpa using hm
      have e : s.bc.sync d = (s.bc, d) := by
        unfold BlockCache.sync; rw [if_neg hm]
      have h1q : (syncAllAux (s :: rest) d).1 = s :: (syncAllAux rest d).1 := by
        show (let r := s.bc.sync d
              let rr := syncAllAux rest r.2
              ({ s with bc := r.1 } :: rr.1, rr.2)).1 = _
        rw [e]
      have h2d : (syncAllAux (s :: rest) d).2 = (syncAllAux rest d).2 := by
        show (let r := s.bc.sync d
              let rr := syncAllAux rest r.2
              ({ s with bc := r.1 } :: rr.1, rr.2)).2 = _
        rw [e]
      obtain ⟨ih1, ih2, ih3, ih4⟩ := ih d hndp.2 hidr
        (fun t ht => hclean t (List.mem_cons_of_mem s ht))
      refine ⟨?_, ?_, ?_, ?_⟩
      · rw [h1q, List.map_cons, List.map_cons, ih1]
      · intro t ht
        rw [h1q] at ht
        rcases List.mem_cons.mp ht with h | h
        · rw [h]; exact hmf
        · exact ih2 t h
      · intro t ht
        rw [h2d]
        rw [h1q] at ht
        rcases List.mem_cons.mp ht with h | h
        · rw [h, ih4 s.bid hndp.1]
          exact hclean s (List.mem_cons_self s rest) hmf
        · exact ih3 t h
      · intro j hj
        rw [List.map_cons] at hj
        rw [h2d, ih4 j (fun hc => hj (List.mem_cons_of_mem _ hc))]

/-- C7: `block_cache_sync_all` syncs every resident entry, front to back,
evicting nothing: the queue keeps the same `(block_id, buffer, strong)`
triples in the same order, every resident entry ends up clean, and —
given distinct resident block ids and device agreement for the already
clean entries (both reachable-state invariants) — the device afterwards
holds every resident entry's buffer at its block id. -/
theorem sync_all_flushes_every_entry (q : List Slot) (d : Device)
    (hnd : (q.map Slot.bid).Nodup)
    (hid : ∀ t ∈ q, t.bc.block_id = t.bid)
    (hclean : ∀ t ∈ q, t.bc.modified = false → d.blocks t.bid = t.bc.cache) :
    ((block_cache_sync_all ⟨q⟩ d).1.queue.map
        (fun t => (t.bid, t.bc.cache, t.strong)) =
      q.map (fun t => (t.bid, t.bc.cache, t.strong))) ∧
    (∀ t ∈ (block_cache_sync_all ⟨q⟩ d).1.queue, t.bc.modified = false) ∧
    (∀ t ∈ (block_cache_sync_all ⟨q⟩ d).1.queue,
      (block_cache_sync_all ⟨q⟩ d).2.blocks t.bid = t.bc.cache) := by
  have A := syncAllAux_spec q d hnd hid hclean
  exact ⟨A.1, A.2.1, A.2.2.1⟩

theorem sync_all_flushes_every_entry_witness :
    ((qSync.map Slot.bid).Nodup ∧
      (∀ t ∈ qSync, t.bc.block_id = t.bid) ∧
      (∀ t ∈ qSync, t.bc.modified = false →
        dev0.blocks t.bid = t.bc.cache)) ∧
    ((block_cache_sync_all ⟨qSync⟩ dev0).1.queue.map
        (fun t => (t.bid, t.bc.cache, t.strong)) =
      qSync.map (fun t => (t.bid, t.bc.cache, t.strong))) ∧
    (∀ t ∈ (block_cache_sync_all ⟨qSync⟩ dev0).1.queue,
      t.bc.modified = false) ∧
    (∀ t ∈ (block_cache_sync_all ⟨qSync⟩ dev0).1.queue,
      (block_cache_sync_all ⟨qSync⟩ dev0).2.blocks t.bid = t.bc.cache) := by
  have T := sync_all_flushes_every_entry qSync dev0 (by decide) (by decide)
    (by decide)
  exact ⟨⟨by decide, by decide, by decide⟩, T.1, T.2.1, T.2.2⟩

lemma bumpFirst_map_bid (q : List Slot) (b : Nat) :
    (bumpFirst q b).map Slot.bid = q.map Slot.bid := by
  induction q with
  | nil => rfl
  | cons s rest ih =>
    unfold bumpFirst
    by_cases h : s.bid = b
    · rw [if_pos h, List.map_cons, List.map_cons]
    · rw [if_neg h, List.map_cons, List.map_cons, ih]

lemma evict_shape (q : List Slot) (d : Device) (p : List Slot × Device)
    (h : evictFirstFree q d = some p) :
    ∃ q1 s q2, q = q1 ++ s :: q2 ∧ p.1 = q1 ++ q2 := by
  induction q generalizing d p with
  | nil => cases h
  | cons s rest ih =>
    unfold evictFirstFree at h
    by_cases hs : s.strong = 1
    · rw [if_pos hs] at h
      injection h with h2
      exact ⟨[], s, rest, rfl, by rw [← h2]; rfl⟩
    · rw [if_neg hs] at h
      cases he : evictFirstFree rest d with
      | none => rw [he] at h; cases h
      | some p2 =>
        rw [he] at h
        injection h with h2
        obtain ⟨q1, t, q2, e1, e2⟩ := ih d p2 he
        refine ⟨s :: q1, t, q2, by rw [e1]; rfl, ?_⟩
        rw [← h2]
        show s :: p2.1 = (s :: q1) ++ q2
        rw [e2]
        rfl

lemma nodup_append_single {l : List Nat} {b : Nat} (h : l.Nodup)
    (hb : b ∉ l) : (l ++ [b]).Nodup := by
  rw [List.nodup_append]
  exact ⟨h, List.nodup_singleton b, by simpa [List.disjoint_singleton] using hb⟩

/-- C10: over every sequence of successful `get_block_cache` calls from
the empty pool, the queue never holds two pairs with the same block id and
never exceeds `BLOCK_CACHE_SIZE` entries: a hit only bumps a count, and a
miss evicts before inserting whenever the queue is already full. -/
theorem queue_invariant (m : BlockCacheManager) (h : Reachable m) :
    (m.queue.map Slot.bid).Nodup ∧ m.queue.length ≤ BLOCK_CACHE_SIZE := by
  induction h with
  | empty => exact ⟨List.nodup_nil, by simp [BLOCK_CACHE_SIZE]⟩
  | step m b d m2 d2 hr hstep ih =>
    unfold BlockCacheManager.get_block_cache at hstep
    by_cases hany : (m.queue.any fun s => s.bid == b) = true
    · rw [if_pos hany] at hstep
      injection hstep with h2
      have hm2 : m2 = ⟨bumpFirst m.queue b⟩ := (congrArg Prod.fst h2).symm
      rw [hm2]
      show ((bumpFirst m.queue b).map Slot.bid).Nodup ∧
        (bumpFirst m.queue b).length ≤ BLOCK_CACHE_SIZE
      have hlen : (bumpFirst m.queue b).length = m.queue.length := by
        have := congrArg List.length (bumpFirst_map_bid m.queue b)
        simpa using this
      rw [bumpFirst_map_bid, hlen]
      exact ih
    · rw [if_neg hany] at hstep
      have hb : b ∉ m.queue.map Slot.bid := by
        intro hc
        apply hany
        simp only [List.any_eq_true, beq_iff_eq]
        obtain ⟨t, ht, he⟩ := List.mem_map.mp hc
        exact ⟨t, ht, he⟩
      by_cases hl : m.queue.length = BLOCK_CACHE_SIZE
      · rw [if_pos hl] at hstep
        cases he : evictFirstFree m.queue d with
        | none => rw [he] at hstep; cases hstep
        | some p =>
          rw [he] at hstep
          injection hstep with h2
          have hm2 : m2 = ⟨p.1 ++ [⟨b, (BlockCache.new b p.2).1, 2⟩]⟩ :=
            (congrArg Prod.fst h2).symm
          obtain ⟨q1, s, q2, e1, e2⟩ := evict_shape m.queue d p he
          have hsub : List.Sublist (p.1.map Slot.bid) (m.queue.map Slot.bid) := by
            rw [e1, e2, List.map_append, List.map_append, List.map_cons]
            exact (List.sublist_cons_self _ _).append_left _
          rw [hm2]
          constructor
          · show ((p.1 ++ [(⟨b, (BlockCache.new b p.2).1, 2⟩ : Slot)]).map
                Slot.bid).Nodup
            rw [List.map_append]
            exact nodup_append_single (ih.1.sublist hsub)
              (fun hc => hb (hsub.subset hc))
          · show (p.1 ++ [(⟨b, (BlockCache.new b p.2).1, 2⟩ : Slot)]).length ≤
              BLOCK_CACHE_SIZE
            have hplen : p.1.length + 1 = m.queue.length := by
              rw [e1, e2]
              simp only [List.length_append, List.length_cons]
              omega
            rw [List.length_append]
            simp only [List.length_singleton]
            omega
      · rw [if_neg hl] at hstep
        injection hstep with h2
        have hm2 : m2 = ⟨m.queue ++ [⟨b, (BlockCache.new b d).1, 2⟩]⟩ :=
          (congrArg Prod.fst h2).symm
        rw [hm2]
        constructor
        · show ((m.queue ++ [(⟨b, (BlockCache.new b d).1, 2⟩ : Slot)]).map
              Slot.bid).Nodup
          rw [List.map_append]
          exact nodup_append_single ih.1 hb
        · show (m.queue ++ [(⟨b, (BlockCache.new b d).1, 2⟩ : Slot)]).length ≤
            BLOCK_CACHE_SIZE
          rw [List.length_append]
          simp only [List.length_singleton]
          have := ih.2
          omega

theorem queue_invariant_witness :
    Reachable mReach ∧ (mReach.queue.map Slot.bid).Nodup ∧
    mReach.queue.length ≤ BLOCK_CACHE_SIZE := by
  have hr : Reachable mReach :=
    Reachable.step ⟨[]⟩ 0 dev0 mReach ⟨fun _ => [], 1, 0⟩ Reachable.empty rfl
  exact ⟨hr, (queue_invariant mReach hr).1, (queue_invariant mReach hr).2⟩

end BlockCacheSpec
